import Mathlib

/-!
Verification of the Orderbook Analytics & Replay Engine of the
kraken-orderbook-visualizer repository (`OrderbookVisualizer.jsx`).

Prices, volumes and derived statistics are embedded as rationals (`ℚ`), and
timestamps as integers (milliseconds).  JS `Map`s are embedded as association
lists in insertion order, JS `Set`s as duplicate-free lists.
-/

namespace Kraken

/-- Price level as parsed by the component: a `(price, volume)` pair of decimals
(`parseFloat(l.price)`, `parseFloat(l.volume)`). -/
abbrev Level := ℚ × ℚ

/-- Executable floor on rationals (`Math.floor` applied to an exact rational value). -/
def floorQ (q : ℚ) : ℤ := q.num / q.den

/-- Executable ceiling on rationals (`Math.ceil` applied to an exact rational value). -/
def ceilQ (q : ℚ) : ℤ := -floorQ (-q)

theorem floorQ_eq (q : ℚ) : floorQ q = ⌊q⌋ := Rat.floor_def.symm

theorem ceilQ_eq (q : ℚ) : ceilQ q = ⌈q⌉ := by
  rw [ceilQ, floorQ_eq, Int.floor_neg, neg_neg]

/-- Rounding of a price to its tick boundary in `aggregateByTickSize`:
bids round down (`Math.floor(price / tickSize) * tickSize`), asks round up
(`Math.ceil(price / tickSize) * tickSize`). -/
def roundToTick (isBid : Bool) (tickSize price : ℚ) : ℚ :=
  if isBid then (floorQ (price / tickSize) : ℚ) * tickSize
  else (ceilQ (price / tickSize) : ℚ) * tickSize

/-- JS `Map` update used by the aggregation loop of `aggregateByTickSize`:
`aggregated.set(roundedPrice, (aggregated.get(roundedPrice) ?? 0) + volume)`.
Adds `v` to the entry at key `p`, appending the key in insertion order if absent. -/
def insertAdd : List (ℚ × ℚ) → ℚ → ℚ → List (ℚ × ℚ)
  | [], p, v => [(p, v)]
  | (q, w) :: rest, p, v =>
    if q = p then (q, w + v) :: rest else (q, w) :: insertAdd rest p v

/-- The `aggregated` map built by the `orders.forEach` loop of `aggregateByTickSize`:
volumes summed per rounded price, keys kept in insertion order. -/
def buildBuckets (orders : List Level) (tickSize : ℚ) (isBid : Bool) : List Level :=
  orders.foldl (fun acc lv => insertAdd acc (roundToTick isBid tickSize lv.1) lv.2) []

/-- Sort order used by `aggregateByTickSize`
(`.sort((a, b) => isBid ? b.price - a.price : a.price - b.price)`):
bids descending by price, asks ascending by price. -/
def levelOrder (isBid : Bool) (a b : Level) : Prop :=
  if isBid then b.1 ≤ a.1 else a.1 ≤ b.1

instance (isBid : Bool) : DecidableRel (levelOrder isBid) := fun a b =>
  decidable_of_iff (if isBid then b.1 ≤ a.1 else a.1 ≤ b.1) Iff.rfl

instance (isBid : Bool) : IsTotal Level (levelOrder isBid) := by
  cases isBid
  · exact ⟨fun a b => le_total a.1 b.1⟩
  · exact ⟨fun a b => le_total b.1 a.1⟩

instance (isBid : Bool) : IsTrans Level (levelOrder isBid) := by
  cases isBid
  · exact ⟨fun a b c h1 h2 => le_trans h1 h2⟩
  · exact ⟨fun a b c h1 h2 => le_trans h2 h1⟩

/-- Tick-size aggregation (`aggregateByTickSize` in the source): bucket levels by
rounded price, then sort bids descending and asks ascending by price.  The source
attaches `total: 0` to every bucket and recomputes totals in `formatOrderbookData`,
so buckets are modelled as `(price, volume)` pairs. -/
def aggregateByTickSize (orders : List Level) (tickSize : ℚ) (isBid : Bool) : List Level :=
  List.insertionSort (levelOrder isBid) (buildBuckets orders tickSize isBid)

/-- Aggregated ladder entry of the view model: price, bucket volume, cumulative total. -/
structure AggLevel where
  price : ℚ
  volume : ℚ
  total : ℚ
deriving DecidableEq, Repr

/-- Cumulative pass of `formatOrderbookData`
(`cum += level.volume; level.total = cum`, walking the array from position 0). -/
def addTotals (cum : ℚ) : List Level → List AggLevel
  | [] => []
  | (p, v) :: rest => ⟨p, v, cum + v⟩ :: addTotals (cum + v) rest

/-- Orderbook snapshot delivered by the transport layer: bids descending, asks
ascending by price (source order is trusted), plus a timestamp in milliseconds. -/
structure Snapshot where
  timestamp : ℤ
  bids : List Level
  asks : List Level
deriving DecidableEq

/-- Depth-range filter of `formatOrderbookData` (`filterByRange`): keep levels whose
absolute distance from the mid price is at most `midPrice * range/100`; inactive
when the selected range is 20% or more. -/
def filterByRange (depthRangePercent mid : ℚ) (orders : List Level) : List Level :=
  if 20 ≤ depthRangePercent then orders
  else orders.filter (fun l => decide (|l.1 - mid| ≤ mid * (depthRangePercent / 100)))

/-- The ladder construction of `formatOrderbookData`: compute the mid price from the
raw best bid/ask, filter both sides by depth range, aggregate by tick size, truncate
to `depth` buckets, reverse the bid array, then attach running totals starting at
array position 0 on both arrays. -/
def formatOrderbookData (ob : Snapshot) (tickSize : ℚ) (depth : ℕ)
    (depthRangePercent : ℚ) : List AggLevel × List AggLevel :=
  let bestBidPrice : ℚ := ((ob.bids.head?).map Prod.fst).getD 0
  let bestAskPrice : ℚ := ((ob.asks.head?).map Prod.fst).getD 0
  let midPriceCalc := (bestBidPrice + bestAskPrice) / 2
  let filteredBids := filterByRange depthRangePercent midPriceCalc ob.bids
  let filteredAsks := filterByRange depthRangePercent midPriceCalc ob.asks
  let bids := ((aggregateByTickSize filteredBids tickSize true).take depth).reverse
  let asks := (aggregateByTickSize filteredAsks tickSize false).take depth
  (addTotals 0 bids, addTotals 0 asks)

/-! ### Lemmas about tick aggregation -/

theorem roundToTick_idem (isBid : Bool) {t : ℚ} (ht : t ≠ 0) (p : ℚ) :
    roundToTick isBid t (roundToTick isBid t p) = roundToTick isBid t p := by
  cases isBid <;>
    simp [roundToTick, floorQ_eq, ceilQ_eq, mul_div_cancel_right₀ _ ht,
      Int.floor_intCast, Int.ceil_intCast]

theorem insertAdd_of_not_mem {l : List (ℚ × ℚ)} {p : ℚ} (v : ℚ)
    (h : p ∉ l.map Prod.fst) : insertAdd l p v = l ++ [(p, v)] := by
  induction l with
  | nil => rfl
  | cons hd tl ih =>
    obtain ⟨q, w⟩ := hd
    simp only [List.map_cons, List.mem_cons, not_or] at h
    have hne : ¬ q = p := fun hqp => h.1 hqp.symm
    simp only [insertAdd, if_neg hne, ih h.2, List.cons_append]

theorem map_fst_insertAdd (l : List (ℚ × ℚ)) (p v : ℚ) :
    (insertAdd l p v).map Prod.fst =
      if p ∈ l.map Prod.fst then l.map Prod.fst else l.map Prod.fst ++ [p] := by
  induction l with
  | nil => simp [insertAdd]
  | cons hd tl ih =>
    obtain ⟨q, w⟩ := hd
    by_cases hqp : q = p
    · subst hqp
      simp [insertAdd]
    · simp only [insertAdd, if_neg hqp, List.map_cons, List.mem_cons, ih]
      by_cases hmem : p ∈ tl.map Prod.fst <;>
        simp [hmem, Ne.symm hqp]

theorem nodup_keys_insertAdd {l : List (ℚ × ℚ)} (h : (l.map Prod.fst).Nodup)
    (p v : ℚ) : ((insertAdd l p v).map Prod.fst).Nodup := by
  rw [map_fst_insertAdd]
  split
  · exact h
  · next hnot =>
      exact (List.nodup_append).mpr
        ⟨h, List.nodup_singleton p, by simpa [List.disjoint_singleton] using hnot⟩

theorem mem_vol_insertAdd {l : List (ℚ × ℚ)} {v : ℚ}
    (hl : ∀ kv ∈ l, 0 ≤ kv.2) (hv : 0 ≤ v) (p : ℚ) :
    ∀ kv ∈ insertAdd l p v, 0 ≤ kv.2 := by
  induction l with
  | nil =>
    intro kv hkv
    simp only [insertAdd, List.mem_singleton] at hkv
    simpa [hkv] using hv
  | cons hd tl ih =>
    obtain ⟨q, w⟩ := hd
    intro kv hkv
    by_cases hqp : q = p
    · simp only [insertAdd, if_pos hqp, List.mem_cons] at hkv
      rcases hkv with h | h
      · have hw : (0:ℚ) ≤ w := hl (q, w) (by simp)
        simp [h]
        exact add_nonneg hw hv
      · exact hl kv (by simp [h])
    · simp only [insertAdd, if_neg hqp, List.mem_cons] at hkv
      rcases hkv with h | h
      · exact hl kv (by simp [h])
      · exact ih (fun kv hkv => hl kv (by simp [hkv])) kv h

theorem mem_key_insertAdd {l : List (ℚ × ℚ)} {p v : ℚ} {k : ℚ}
    (hk : k ∈ (insertAdd l p v).map Prod.fst) : k ∈ l.map Prod.fst ∨ k = p := by
  rw [map_fst_insertAdd] at hk
  split at hk
  · exact Or.inl hk
  · rcases List.mem_append.1 hk with h | h
    · exact Or.inl h
    · simp only [List.mem_singleton] at h
      exact Or.inr h

/-- Fold invariant of `buildBuckets`: any per-entry property preserved by
`insertAdd` holds for the final map. -/
theorem buildBuckets_keys_fixed {t : ℚ} {isBid : Bool} (ht : t ≠ 0) :
    ∀ (orders : List Level) (acc : List Level),
      (∀ k ∈ acc.map Prod.fst, roundToTick isBid t k = k) →
      ∀ k ∈ (orders.foldl
          (fun acc lv => insertAdd acc (roundToTick isBid t lv.1) lv.2) acc).map Prod.fst,
        roundToTick isBid t k = k := by
  intro orders
  induction orders with
  | nil => intro acc hacc; simpa using hacc
  | cons hd tl ih =>
    intro acc hacc k hk
    rw [List.foldl_cons] at hk
    refine ih _ ?_ k hk
    intro k' hk'
    rcases mem_key_insertAdd hk' with h | h
    · exact hacc k' h
    · rw [h]
      exact roundToTick_idem isBid ht hd.1

theorem buildBuckets_keys_nodup (orders : List Level) (t : ℚ) (isBid : Bool) :
    ((buildBuckets orders t isBid).map Prod.fst).Nodup := by
  have aux : ∀ (l : List Level) (acc : List Level), (acc.map Prod.fst).Nodup →
      ((l.foldl (fun acc lv => insertAdd acc (roundToTick isBid t lv.1) lv.2) acc).map
        Prod.fst).Nodup := by
    intro l
    induction l with
    | nil => intro acc hacc; simpa using hacc
    | cons hd tl ih =>
      intro acc hacc
      rw [List.foldl_cons]
      exact ih _ (nodup_keys_insertAdd hacc _ _)
  exact aux orders [] (by simp)

theorem buildBuckets_vol_nonneg {orders : List Level} {t : ℚ} {isBid : Bool}
    (horders : ∀ lv ∈ orders, 0 ≤ lv.2) :
    ∀ kv ∈ buildBuckets orders t isBid, 0 ≤ kv.2 := by
  have aux : ∀ (l : List Level) (acc : List Level), (∀ lv ∈ l, 0 ≤ lv.2) →
      (∀ kv ∈ acc, 0 ≤ kv.2) →
      ∀ kv ∈ l.foldl (fun acc lv => insertAdd acc (roundToTick isBid t lv.1) lv.2) acc,
        0 ≤ kv.2 := by
    intro l
    induction l with
    | nil => intro acc _ hacc; simpa using hacc
    | cons hd tl ih =>
      intro acc hl hacc
      rw [List.foldl_cons]
      exact ih _ (fun lv hlv => hl lv (by simp [hlv]))
        (mem_vol_insertAdd hacc (hl hd (by simp)) _)
  exact aux orders [] horders (by simp)

/-- Folding `insertAdd` over a list whose keys are already distinct and disjoint
from the accumulator, with every key fixed by rounding, appends the list as is. -/
theorem foldl_insertAdd_fixed {t : ℚ} {isBid : Bool} :
    ∀ (l : List Level) (acc : List Level),
      (∀ lv ∈ l, roundToTick isBid t lv.1 = lv.1) →
      (l.map Prod.fst).Nodup →
      (∀ k ∈ l.map Prod.fst, k ∉ acc.map Prod.fst) →
      l.foldl (fun acc lv => insertAdd acc (roundToTick isBid t lv.1) lv.2) acc
        = acc ++ l := by
  intro l
  induction l with
  | nil => intro acc _ _ _; simp
  | cons hd tl ih =>
    intro acc hfix hnodup hdisj
    obtain ⟨p, v⟩ := hd
    have hfix0 : roundToTick isBid t p = p := hfix (p, v) (by simp)
    have hpacc : p ∉ acc.map Prod.fst := hdisj p (by simp)
    have hstep : insertAdd acc (roundToTick isBid t (p, v).1) (p, v).2 = acc ++ [(p, v)] := by
      rw [show roundToTick isBid t (p, v).1 = p from hfix0]
      exact insertAdd_of_not_mem v hpacc
    rw [List.foldl_cons, hstep,
      ih (acc ++ [(p, v)]) (fun lv hlv => hfix lv (by simp [hlv]))
        (by simpa using hnodup.of_cons)
        ?_]
    · simp
    · intro k hk
      simp only [List.map_append, List.mem_append, List.map_cons, List.map_nil,
        List.mem_singleton, not_or]
      refine ⟨hdisj k (by simp [hk]), ?_⟩
      intro hkp
      simp only [List.map_cons, List.nodup_cons] at hnodup
      exact hnodup.1 (hkp ▸ hk)

theorem aggregate_perm (orders : List Level) (t : ℚ) (isBid : Bool) :
    List.Perm (aggregateByTickSize orders t isBid) (buildBuckets orders t isBid) :=
  List.perm_insertionSort _ _

theorem aggregate_sorted (orders : List Level) (t : ℚ) (isBid : Bool) :
    (aggregateByTickSize orders t isBid).Sorted (levelOrder isBid) :=
  List.sorted_insertionSort _ _

theorem aggregate_keys_fixed (orders : List Level) (t : ℚ) (isBid : Bool) (ht : t ≠ 0) :
    ∀ lv ∈ aggregateByTickSize orders t isBid, roundToTick isBid t lv.1 = lv.1 := by
  intro lv hlv
  have hmem : lv ∈ buildBuckets orders t isBid :=
    (aggregate_perm orders t isBid).mem_iff.1 hlv
  exact buildBuckets_keys_fixed ht orders [] (by simp) lv.1
    (List.mem_map_of_mem Prod.fst hmem)

theorem aggregate_keys_nodup (orders : List Level) (t : ℚ) (isBid : Bool) :
    ((aggregateByTickSize orders t isBid).map Prod.fst).Nodup :=
  (((aggregate_perm orders t isBid).map Prod.fst).nodup_iff).2
    (buildBuckets_keys_nodup orders t isBid)

theorem aggregate_vol_nonneg {orders : List Level} {t : ℚ} {isBid : Bool}
    (horders : ∀ lv ∈ orders, 0 ≤ lv.2) :
    ∀ lv ∈ aggregateByTickSize orders t isBid, 0 ≤ lv.2 := fun lv hlv =>
  buildBuckets_vol_nonneg horders lv ((aggregate_perm orders t isBid).mem_iff.1 hlv)

theorem filterByRange_subset {r m : ℚ} {orders : List Level} :
    ∀ lv ∈ filterByRange r m orders, lv ∈ orders := by
  intro lv hlv
  unfold filterByRange at hlv
  split at hlv
  · exact hlv
  · exact List.mem_of_mem_filter hlv

/-! ### Lemmas about the cumulative pass -/

theorem addTotals_le_total {l : List Level} (hl : ∀ lv ∈ l, 0 ≤ lv.2) (c : ℚ) :
    ∀ x ∈ addTotals c l, c ≤ x.total := by
  induction l generalizing c with
  | nil => intro x hx; simp [addTotals] at hx
  | cons hd tl ih =>
    obtain ⟨p, v⟩ := hd
    have hv : (0:ℚ) ≤ v := hl (p, v) (by simp)
    intro x hx
    simp only [addTotals, List.mem_cons] at hx
    rcases hx with h | h
    · rw [h]
      simpa using hv
    · exact le_trans (by simpa using hv)
        (ih (fun lv hlv => hl lv (by simp [hlv])) (c + v) x h)

theorem addTotals_pairwise_total {l : List Level} (hl : ∀ lv ∈ l, 0 ≤ lv.2) (c : ℚ) :
    (addTotals c l).Pairwise (fun a b => a.total ≤ b.total) := by
  induction l generalizing c with
  | nil => exact List.Pairwise.nil
  | cons hd tl ih =>
    obtain ⟨p, v⟩ := hd
    refine List.Pairwise.cons ?_ (ih (fun lv hlv => hl lv (by simp [hlv])) (c + v))
    intro y hy
    exact addTotals_le_total (fun lv hlv => hl lv (by simp [hlv])) (c + v) y hy

theorem addTotals_map_price (c : ℚ) (l : List Level) :
    (addTotals c l).map AggLevel.price = l.map Prod.fst := by
  induction l generalizing c with
  | nil => rfl
  | cons hd tl ih =>
    obtain ⟨p, v⟩ := hd
    simp [addTotals, ih]

theorem addTotals_pairwise_price {l : List Level} (c : ℚ)
    (hl : l.Pairwise (fun a b => a.1 ≤ b.1)) :
    (addTotals c l).Pairwise (fun a b => a.price ≤ b.price) := by
  have h1 : List.Pairwise (fun a b : ℚ => a ≤ b) ((addTotals c l).map AggLevel.price) := by
    rw [addTotals_map_price]
    exact (List.pairwise_map).2 hl
  exact (List.pairwise_map).1 h1

theorem addTotals_head_total (l : List Level) :
    (addTotals 0 l).head?.map AggLevel.total = (addTotals 0 l).head?.map AggLevel.volume := by
  cases l with
  | nil => rfl
  | cons hd tl =>
    obtain ⟨p, v⟩ := hd
    simp [addTotals]

/-! ### C7 : idempotence of tick aggregation -/

/-- C7: for every tick size `t > 0` and side, re-aggregating the output of
`aggregateByTickSize` at the same tick size returns the same buckets (same
prices and per-bucket volumes), and hence the same cumulative totals. -/
theorem c7_aggregate_idempotent (orders : List Level) (tickSize : ℚ) (isBid : Bool)
    (ht : 0 < tickSize) :
    aggregateByTickSize (aggregateByTickSize orders tickSize isBid) tickSize isBid
      = aggregateByTickSize orders tickSize isBid ∧
    addTotals 0 (aggregateByTickSize (aggregateByTickSize orders tickSize isBid)
        tickSize isBid)
      = addTotals 0 (aggregateByTickSize orders tickSize isBid) := by
  have htne : tickSize ≠ 0 := ne_of_gt ht
  have hfix := aggregate_keys_fixed orders tickSize isBid htne
  have hnodup := aggregate_keys_nodup orders tickSize isBid
  have hsorted := aggregate_sorted orders tickSize isBid
  have hbb : buildBuckets (aggregateByTickSize orders tickSize isBid) tickSize isBid
      = aggregateByTickSize orders tickSize isBid := by
    unfold buildBuckets
    simpa using
      foldl_insertAdd_fixed (aggregateByTickSize orders tickSize isBid) [] hfix hnodup
        (by simp)
  have hmain : aggregateByTickSize (aggregateByTickSize orders tickSize isBid)
      tickSize isBid = aggregateByTickSize orders tickSize isBid := by
    rw [aggregateByTickSize, hbb, hsorted.insertionSort_eq]
  exact ⟨hmain, by rw [hmain]⟩

/-- Witness for C7 at a concrete input: tick size 1, a bid side with three raw
levels two of which share a bucket. -/
theorem c7_witness :
    (0:ℚ) < 1 ∧
    (aggregateByTickSize
        (aggregateByTickSize [((21:ℚ)/2, 3), (10, 1), (11, 2)] 1 true) 1 true
      = aggregateByTickSize [((21:ℚ)/2, 3), (10, 1), (11, 2)] 1 true ∧
    addTotals 0 (aggregateByTickSize
        (aggregateByTickSize [((21:ℚ)/2, 3), (10, 1), (11, 2)] 1 true) 1 true)
      = addTotals 0 (aggregateByTickSize [((21:ℚ)/2, 3), (10, 1), (11, 2)] 1 true)) :=
  ⟨by norm_num, c7_aggregate_idempotent [((21:ℚ)/2, 3), (10, 1), (11, 2)] 1 true (by norm_num)⟩

/-! ### C1 : cumulative totals of the two ladders -/

/-- Mid price computed by `formatOrderbookData` from the raw (pre-aggregation)
best bid and best ask, `0` standing in for a missing side. -/
def formatMid (ob : Snapshot) : ℚ :=
  (((ob.bids.head?).map Prod.fst).getD 0 + ((ob.asks.head?).map Prod.fst).getD 0) / 2

theorem format_fst_eq (ob : Snapshot) (t : ℚ) (d : ℕ) (r : ℚ) :
    (formatOrderbookData ob t d r).1 =
      addTotals 0
        (((aggregateByTickSize (filterByRange r (formatMid ob) ob.bids) t true).take
          d).reverse) := rfl

theorem format_snd_eq (ob : Snapshot) (t : ℚ) (d : ℕ) (r : ℚ) :
    (formatOrderbookData ob t d r).2 =
      addTotals 0
        ((aggregateByTickSize (filterByRange r (formatMid ob) ob.asks) t false).take d) :=
  rfl

/-- C1 (amended): for every input snapshot with non-negative volumes, both ladders
produced by `formatOrderbookData` carry cumulative totals that are monotonically
non-decreasing in array order, the entry at array position 0 carrying exactly its
own bucket volume, and both arrays are sorted ascending by price.  For the ask
ladder array order walks away from the best ask, as the original claim states; the
bid array is reversed before totals are attached, so its array order walks from the
farthest bid toward the best bid: walking away from the best bid its cumulative is
non-increasing, and the best-bid entry carries the whole side's total rather than
its own bucket volume. -/
theorem c1_cumulative_monotone (ob : Snapshot) (t : ℚ) (d : ℕ) (r : ℚ)
    (hb : ∀ lv ∈ ob.bids, 0 ≤ lv.2) (ha : ∀ lv ∈ ob.asks, 0 ≤ lv.2) :
    ((formatOrderbookData ob t d r).2.Pairwise (fun a b => a.total ≤ b.total) ∧
     (formatOrderbookData ob t d r).2.Pairwise (fun a b => a.price ≤ b.price) ∧
     (formatOrderbookData ob t d r).2.head?.map AggLevel.total
       = (formatOrderbookData ob t d r).2.head?.map AggLevel.volume) ∧
    ((formatOrderbookData ob t d r).1.Pairwise (fun a b => a.total ≤ b.total) ∧
     (formatOrderbookData ob t d r).1.Pairwise (fun a b => a.price ≤ b.price) ∧
     (formatOrderbookData ob t d r).1.head?.map AggLevel.total
       = (formatOrderbookData ob t d r).1.head?.map AggLevel.volume) := by
  constructor
  · rw [format_snd_eq]
    have hnn : ∀ lv ∈ (aggregateByTickSize (filterByRange r (formatMid ob) ob.asks) t
        false).take d, 0 ≤ lv.2 := by
      intro lv hlv
      exact aggregate_vol_nonneg
        (fun lv hlv => ha lv (filterByRange_subset lv hlv)) lv
        (List.take_subset d _ hlv)
    have hsorted : ((aggregateByTickSize (filterByRange r (formatMid ob) ob.asks) t
        false).take d).Pairwise (fun a b : Level => a.1 ≤ b.1) := by
      have h1 := (aggregate_sorted (filterByRange r (formatMid ob) ob.asks) t false)
      have h2 := h1.sublist (List.take_sublist d _)
      exact h2.imp (fun hab => by simpa [levelOrder] using hab)
    exact ⟨addTotals_pairwise_total hnn 0, addTotals_pairwise_price 0 hsorted,
      addTotals_head_total _⟩
  · rw [format_fst_eq]
    have hnn : ∀ lv ∈ ((aggregateByTickSize (filterByRange r (formatMid ob) ob.bids) t
        true).take d).reverse, 0 ≤ lv.2 := by
      intro lv hlv
      rw [List.mem_reverse] at hlv
      exact aggregate_vol_nonneg
        (fun lv hlv => hb lv (filterByRange_subset lv hlv)) lv
        (List.take_subset d _ hlv)
    have hsorted : (((aggregateByTickSize (filterByRange r (formatMid ob) ob.bids) t
        true).take d).reverse).Pairwise (fun a b : Level => a.1 ≤ b.1) := by
      have h1 := (aggregate_sorted (filterByRange r (formatMid ob) ob.bids) t true)
      have h2 := h1.sublist (List.take_sublist d _)
      have h3 : ((aggregateByTickSize (filterByRange r (formatMid ob) ob.bids) t
          true).take d).Pairwise (fun a b : Level => b.1 ≤ a.1) :=
        h2.imp (fun hab => by simpa [levelOrder] using hab)
      exact List.pairwise_reverse.2 h3
    exact ⟨addTotals_pairwise_total hnn 0, addTotals_pairwise_price 0 hsorted,
      addTotals_head_total _⟩

/-- Witness for C1 at a concrete snapshot with two bid levels and two ask levels. -/
theorem c1_witness :
    (∀ lv ∈ (Snapshot.mk 0 [(100, 1), (99, 2)] [(101, 3), (102, 4)]).bids, 0 ≤ lv.2) ∧
    (∀ lv ∈ (Snapshot.mk 0 [(100, 1), (99, 2)] [(101, 3), (102, 4)]).asks, 0 ≤ lv.2) ∧
    (((formatOrderbookData (Snapshot.mk 0 [(100, 1), (99, 2)] [(101, 3), (102, 4)])
          1 20 20).2.Pairwise (fun a b => a.total ≤ b.total) ∧
      (formatOrderbookData (Snapshot.mk 0 [(100, 1), (99, 2)] [(101, 3), (102, 4)])
          1 20 20).2.Pairwise (fun a b => a.price ≤ b.price) ∧
      (formatOrderbookData (Snapshot.mk 0 [(100, 1), (99, 2)] [(101, 3), (102, 4)])
          1 20 20).2.head?.map AggLevel.total
        = (formatOrderbookData (Snapshot.mk 0 [(100, 1), (99, 2)] [(101, 3), (102, 4)])
          1 20 20).2.head?.map AggLevel.volume) ∧
     ((formatOrderbookData (Snapshot.mk 0 [(100, 1), (99, 2)] [(101, 3), (102, 4)])
          1 20 20).1.Pairwise (fun a b => a.total ≤ b.total) ∧
      (formatOrderbookData (Snapshot.mk 0 [(100, 1), (99, 2)] [(101, 3), (102, 4)])
          1 20 20).1.Pairwise (fun a b => a.price ≤ b.price) ∧
      (formatOrderbookData (Snapshot.mk 0 [(100, 1), (99, 2)] [(101, 3), (102, 4)])
          1 20 20).1.head?.map AggLevel.total
        = (formatOrderbookData (Snapshot.mk 0 [(100, 1), (99, 2)] [(101, 3), (102, 4)])
          1 20 20).1.head?.map AggLevel.volume)) := by
  refine ⟨?_, ?_, c1_cumulative_monotone _ 1 20 20 ?_ ?_⟩ <;>
    · intro lv hlv
      simp only [List.mem_cons, List.not_mem_nil, or_false] at hlv
      rcases hlv with h | h <;> · rw [h]; norm_num

/-- C1 counterexample: on the snapshot with bids `[(100, 1), (99, 1)]` and no asks,
at tick size 1, depth 20 and range 20 the bid ladder of `formatOrderbookData` is
`[(99, 1, total 1), (100, 1, total 2)]`.  The entry at the best bid price (100, the
maximum) carries cumulative 2 — the whole side's sum — instead of its own bucket
volume 1, and walking away from the best price the cumulative strictly decreases
from 2 to 1, refuting the claimed monotone non-decrease away from the best price. -/
theorem c1_counterexample :
    (formatOrderbookData (Snapshot.mk 0 [(100, 1), (99, 1)] []) 1 20 20).1
        = [AggLevel.mk 99 1 1, AggLevel.mk 100 1 2] ∧
    ¬ ((AggLevel.mk 100 1 2).total = (AggLevel.mk 100 1 2).volume) ∧
    ¬ ((AggLevel.mk 100 1 2).total ≤ (AggLevel.mk 99 1 1).total) := by
  refine ⟨by with_unfolding_all decide, by norm_num [AggLevel.total, AggLevel.volume], by norm_num [AggLevel.total]⟩

/-! ### Replay history downsampling -/

/-- Snapshot cap of the replay loader (`MAX_SNAPSHOTS = 300`). -/
def maxSnapshots : ℕ := 300

/-- Downsampling step of the history fetch effect:
`Math.ceil(data.length / MAX_SNAPSHOTS)` (the division is exact on these integer
ranges, so the ceiling equals the rounded-up natural division). -/
def downsampleStep (n : ℕ) : ℕ := (n + maxSnapshots - 1) / maxSnapshots

/-- Downsampling of the history fetch effect: when the fetched sequence exceeds
`MAX_SNAPSHOTS` entries, keep exactly the elements whose index is divisible by the
step (`data.filter((_, idx) => idx % step === 0)`); shorter sequences are kept
unchanged. -/
def downsample (l : List α) : List α :=
  if maxSnapshots < l.length then
    (l.enum.filter (fun p => p.1 % downsampleStep l.length == 0)).map Prod.snd
  else l

theorem range_filter_mod_bounds {s : ℕ} (hs : 0 < s) :
    ∀ n : ℕ, n ≤ (((List.range n).filter (fun i => i % s == 0)).length) * s ∧
      (((List.range n).filter (fun i => i % s == 0)).length) * s < n + s := by
  intro n
  induction n with
  | zero => simpa using hs
  | succ n ih =>
    obtain ⟨h1, h2⟩ := ih
    rw [List.range_succ, List.filter_append, List.length_append]
    by_cases h : n % s = 0
    · obtain ⟨a, rfl⟩ : s ∣ n := Nat.dvd_of_mod_eq_zero h
      have hcnt : ((List.range (s * a)).filter (fun i => i % s == 0)).length = a := by
        have h1' : s * a ≤ s * ((List.range (s * a)).filter (fun i => i % s == 0)).length := by
          rw [mul_comm s (((List.range (s * a)).filter (fun i => i % s == 0)).length)]
          exact h1
        have h2' : s * ((List.range (s * a)).filter (fun i => i % s == 0)).length
            < s * (a + 1) := by
          rw [mul_comm s (((List.range (s * a)).filter (fun i => i % s == 0)).length)]
          calc ((List.range (s * a)).filter (fun i => i % s == 0)).length * s
              < s * a + s := h2
            _ = s * (a + 1) := by ring
        have hle : a ≤ ((List.range (s * a)).filter (fun i => i % s == 0)).length :=
          Nat.le_of_mul_le_mul_left h1' hs
        have hlt : ((List.range (s * a)).filter (fun i => i % s == 0)).length < a + 1 :=
          Nat.lt_of_mul_lt_mul_left h2'
        omega
      have hsing : (List.filter (fun i => i % s == 0) [s * a]).length = 1 := by
        simp [List.filter_singleton, h]
      rw [hcnt, hsing]
      have he : (a + 1) * s = s * a + s := by ring
      omega
    · have hsing : (List.filter (fun i => i % s == 0) [n]).length = 0 := by
        simp [List.filter_singleton, h]
      have hne : ((List.range n).filter (fun i => i % s == 0)).length * s ≠ n := by
        intro heq
        exact h (heq ▸ Nat.mul_mod_left _ s)
      rw [hsing]
      have he : (((List.range n).filter (fun i => i % s == 0)).length + 0) * s
          = ((List.range n).filter (fun i => i % s == 0)).length * s := by ring
      omega

theorem enum_filter_mod_length (l : List α) (s : ℕ) :
    (l.enum.filter (fun p => p.1 % s == 0)).length
      = ((List.range l.length).filter (fun i => i % s == 0)).length := by
  have h1 : (List.range l.length).filter (fun i => i % s == 0)
      = (l.enum.map Prod.fst).filter (fun i => i % s == 0) := by
    rw [List.enum_map_fst]
  rw [h1, List.filter_map, List.length_map]
  rfl

/-- C5: a fetched history longer than 300 entries is downsampled to at most 300
entries, keeping the first snapshot and a subsequence of the input (chronological
order preserved); sequences of at most 300 entries are kept unchanged. -/
theorem c5_downsample_bounds (l : List α) :
    (maxSnapshots < l.length →
      (downsample l).length ≤ maxSnapshots ∧
      (downsample l).head? = l.head? ∧
      List.Sublist (downsample l) l) ∧
    (l.length ≤ maxSnapshots → downsample l = l) := by
  constructor
  · intro h
    have hd : downsample l
        = (l.enum.filter (fun p => p.1 % downsampleStep l.length == 0)).map Prod.snd := by
      rw [downsample, if_pos h]
    have hs : 0 < downsampleStep l.length := by
      rw [downsampleStep, maxSnapshots] at *
      have : 300 ≤ l.length + 300 - 1 := by omega
      exact (Nat.one_le_div_iff (by norm_num)).2 this
    refine ⟨?_, ?_, ?_⟩
    · rw [hd, List.length_map, enum_filter_mod_length]
      obtain ⟨h1, h2⟩ := range_filter_mod_bounds hs l.length
      have h300 : l.length ≤ 300 * downsampleStep l.length := by
        have hdm := Nat.div_add_mod (l.length + 300 - 1) 300
        have hml : (l.length + 300 - 1) % 300 < 300 := Nat.mod_lt _ (by norm_num)
        rw [downsampleStep, maxSnapshots]
        rw [maxSnapshots] at h
        omega
      rw [maxSnapshots] at *
      by_contra hcon
      push_neg at hcon
      have : 301 * downsampleStep l.length
          ≤ ((List.range l.length).filter
              (fun i => i % downsampleStep l.length == 0)).length
            * downsampleStep l.length :=
        Nat.mul_le_mul_right _ hcon
      omega
    · rw [hd]
      cases l with
      | nil => simp at h
      | cons a tl =>
        rw [List.enum_cons]
        simp [List.filter_cons]
    · rw [hd]
      have h1 : List.Sublist (l.enum.filter
          (fun p => p.1 % downsampleStep l.length == 0)) l.enum :=
        List.filter_sublist _
      have h2 := h1.map Prod.snd
      rwa [List.enum_map_snd] at h2
  · intro h
    rw [downsample, if_neg (by omega)]

set_option maxRecDepth 40000 in
/-- Witness for C5 at a concrete input: 302 snapshots with distinct timestamps. -/
theorem c5_witness :
    maxSnapshots < ((List.range 302).map (fun i => Snapshot.mk i [] [])).length ∧
    ((downsample ((List.range 302).map (fun i => Snapshot.mk i [] []))).length
        ≤ maxSnapshots ∧
      (downsample ((List.range 302).map (fun i => Snapshot.mk i [] []))).head?
        = ((List.range 302).map (fun i => Snapshot.mk i [] [])).head? ∧
      List.Sublist (downsample ((List.range 302).map (fun i => Snapshot.mk i [] [])))
        ((List.range 302).map (fun i => Snapshot.mk i [] []))) :=
  ⟨by simp only [List.length_map, List.length_range]; decide,
    (c5_downsample_bounds ((List.range 302).map (fun i => Snapshot.mk i [] []))).1
      (by simp only [List.length_map, List.length_range]; decide)⟩

set_option maxRecDepth 40000 in
/-- C9: downsampling does not necessarily retain the final fetched snapshot.  For
the concrete 302-entry history below the step is `ceil(302/300) = 2`, the kept
indices are the even ones `0, 2, …, 300`, and the last fetched snapshot (index 301,
timestamp 301) is dropped, so the downsampled replay history ends at timestamp 300. -/
theorem c9_downsample_drops_last :
    maxSnapshots < ((List.range 302).map (fun i => Snapshot.mk i [] [])).length ∧
    (downsample ((List.range 302).map (fun i => Snapshot.mk i [] []))).getLast?
      = some (Snapshot.mk 300 [] []) ∧
    ((List.range 302).map (fun i => Snapshot.mk i [] [])).getLast?
      = some (Snapshot.mk 301 [] []) ∧
    Snapshot.mk 301 [] [] ∉ downsample ((List.range 302).map (fun i => Snapshot.mk i [] [])) := by
  refine ⟨by simp only [List.length_map, List.length_range]; decide, by decide, by decide,
    by decide⟩

/-! ### Replay jump controls -/

/-- Scan loop of `handleJumpBack` over the timestamp list: walk indices
`i, i-1, …, 0`; stop at the first index whose timestamp is at most the target,
otherwise keep assigning `newIndex = i` all the way down to 0.  At index 0 both
branches of the source loop leave `newIndex = 0`. -/
def jumpBackLoop (ts : List ℤ) (target : ℤ) : ℕ → ℕ
  | 0 => 0
  | i + 1 => if ts.getD (i + 1) 0 ≤ target then i + 1 else jumpBackLoop ts target i

/-- `handleJumpBack`: guard on empty history or missing current time, compute the
target `currentTime - 10000`, then scan from `historyIndex - 1` down to 0. -/
def handleJumpBack (ts : List ℤ) : Option ℤ → ℕ → ℕ
  | none, historyIndex => historyIndex
  | some t, historyIndex =>
    if ts.isEmpty then historyIndex
    else
      match historyIndex with
      | 0 => 0
      | i + 1 => jumpBackLoop ts (t - 10000) i

/-- Scan loop of `handleJumpForward`: from index `i`, assign `newIndex = i`, stop
when the timestamp reaches the target, otherwise advance while `i + 1 < length`.
The fuel argument dominates the remaining distance to the end of the list. -/
def jumpForwardLoop (ts : List ℤ) (target : ℤ) : ℕ → ℕ → ℕ
  | i, 0 => i
  | i, fuel + 1 =>
    if target ≤ ts.getD i 0 then i
    else if i + 1 < ts.length then jumpForwardLoop ts target (i + 1) fuel
    else i

/-- `handleJumpForward`: guard on empty history or missing current time, compute the
target `currentTime + 10000`, then scan from `historyIndex + 1` up to the end. -/
def handleJumpForward (ts : List ℤ) : Option ℤ → ℕ → ℕ
  | none, historyIndex => historyIndex
  | some t, historyIndex =>
    if ts.isEmpty then historyIndex
    else if historyIndex + 1 < ts.length then
      jumpForwardLoop ts (t + 10000) (historyIndex + 1) (ts.length - (historyIndex + 1))
    else historyIndex

theorem jumpBackLoop_spec (ts : List ℤ) (target : ℤ) :
    ∀ i : ℕ,
      ((∃ j, j ≤ i ∧ ts.getD j 0 ≤ target) →
        (jumpBackLoop ts target i ≤ i ∧ ts.getD (jumpBackLoop ts target i) 0 ≤ target ∧
          ∀ j, jumpBackLoop ts target i < j → j ≤ i → ¬ ts.getD j 0 ≤ target)) ∧
      ((¬ ∃ j, j ≤ i ∧ ts.getD j 0 ≤ target) → jumpBackLoop ts target i = 0) := by
  intro i
  induction i with
  | zero =>
    refine ⟨?_, fun _ => rfl⟩
    rintro ⟨j, hj0, hPj⟩
    have hj : j = 0 := Nat.le_zero.1 hj0
    subst hj
    exact ⟨le_refl 0, hPj, fun j h1 h2 => absurd (lt_of_lt_of_le h1 h2) (lt_irrefl _)⟩
  | succ i ih =>
    by_cases hP : ts.getD (i + 1) 0 ≤ target
    · rw [show jumpBackLoop ts target (i + 1) = i + 1 by
        rw [jumpBackLoop, if_pos hP]]
      refine ⟨fun _ => ⟨le_refl _, hP, fun j h1 h2 => absurd (lt_of_lt_of_le h1 h2)
        (lt_irrefl _)⟩, fun hno => absurd ⟨i + 1, le_refl _, hP⟩ hno⟩
    · rw [show jumpBackLoop ts target (i + 1) = jumpBackLoop ts target i by
        rw [jumpBackLoop, if_neg hP]]
      constructor
      · rintro ⟨j, hj, hPj⟩
        have hj' : j ≤ i := by
          rcases Nat.lt_or_ge j (i + 1) with h | h
          · omega
          · have hji : j = i + 1 := by omega
            rw [hji] at hPj
            exact absurd hPj hP
        obtain ⟨ha, hb, hc⟩ := ih.1 ⟨j, hj', hPj⟩
        refine ⟨le_trans ha (by omega), hb, ?_⟩
        intro j' h1 h2
        rcases Nat.lt_or_ge j' (i + 1) with h | h
        · exact hc j' h1 (by omega)
        · have : j' = i + 1 := by omega
          rw [this]
          exact hP
      · intro hno
        refine ih.2 ?_
        rintro ⟨j, hj, hPj⟩
        exact hno ⟨j, by omega, hPj⟩

theorem jumpForwardLoop_spec (ts : List ℤ) (target : ℤ) :
    ∀ (fuel i : ℕ), i < ts.length → ts.length ≤ i + fuel + 1 →
      (i ≤ jumpForwardLoop ts target i fuel ∧
       jumpForwardLoop ts target i fuel < ts.length ∧
       (∀ j, i ≤ j → j < jumpForwardLoop ts target i fuel → ¬ target ≤ ts.getD j 0) ∧
       (target ≤ ts.getD (jumpForwardLoop ts target i fuel) 0 ∨
         jumpForwardLoop ts target i fuel = ts.length - 1)) := by
  intro fuel
  induction fuel with
  | zero =>
    intro i hi hlen
    rw [jumpForwardLoop]
    exact ⟨le_refl _, hi, fun j h1 h2 => absurd (lt_of_le_of_lt h1 h2) (lt_irrefl _),
      Or.inr (by omega)⟩
  | succ fuel ih =>
    intro i hi hlen
    by_cases hP : target ≤ ts.getD i 0
    · rw [show jumpForwardLoop ts target i (fuel + 1) = i by
        rw [jumpForwardLoop, if_pos hP]]
      exact ⟨le_refl _, hi, fun j h1 h2 => absurd (lt_of_le_of_lt h1 h2) (lt_irrefl _),
        Or.inl hP⟩
    · by_cases hnext : i + 1 < ts.length
      · rw [show jumpForwardLoop ts target i (fuel + 1)
            = jumpForwardLoop ts target (i + 1) fuel by
          rw [jumpForwardLoop, if_neg hP, if_pos hnext]]
        obtain ⟨ha, hb, hc, hd⟩ := ih (i + 1) hnext (by omega)
        refine ⟨by omega, hb, ?_, hd⟩
        intro j h1 h2
        rcases Nat.lt_or_ge j (i + 1) with h | h
        · have : j = i := by omega
          rw [this]
          exact hP
        · exact hc j h h2
      · rw [show jumpForwardLoop ts target i (fuel + 1) = i by
          rw [jumpForwardLoop, if_neg hP, if_neg hnext]]
        exact ⟨le_refl _, hi, fun j h1 h2 => absurd (lt_of_le_of_lt h1 h2) (lt_irrefl _),
          Or.inr (by omega)⟩

theorem isEmpty_false_of_ne_nil {ts : List ℤ} (h : ts ≠ []) : ts.isEmpty = false := by
  cases ts with
  | nil => exact absurd rfl h
  | cons a tl => rfl

/-- C2 (amended): when a qualifying snapshot exists in the scan direction, the
±10 s jumps stop at the first snapshot whose timestamp is ≤ (back) respectively
≥ (forward) the target 10 s away.  When no snapshot qualifies the jump is not a
no-op in general: the backward jump clamps the index to 0 and the forward jump
clamps it to the last index; the index is left unchanged only when it already sits
at that boundary (in particular jumping back from index 0, or forward from the last
index, is a no-op). -/
theorem c2_jump_semantics (ts : List ℤ) (t : ℤ) (idx : ℕ) (hne : ts ≠ []) :
    (((∃ j, j < idx ∧ ts.getD j 0 ≤ t - 10000) →
        (handleJumpBack ts (some t) idx < idx ∧
         ts.getD (handleJumpBack ts (some t) idx) 0 ≤ t - 10000 ∧
         ∀ j, handleJumpBack ts (some t) idx < j → j < idx →
           ¬ ts.getD j 0 ≤ t - 10000)) ∧
      ((¬ ∃ j, j < idx ∧ ts.getD j 0 ≤ t - 10000) →
        handleJumpBack ts (some t) idx = 0)) ∧
    (((∃ j, idx < j ∧ j < ts.length ∧ t + 10000 ≤ ts.getD j 0) →
        (idx < handleJumpForward ts (some t) idx ∧
         handleJumpForward ts (some t) idx < ts.length ∧
         t + 10000 ≤ ts.getD (handleJumpForward ts (some t) idx) 0 ∧
         ∀ j, idx < j → j < handleJumpForward ts (some t) idx →
           ¬ t + 10000 ≤ ts.getD j 0)) ∧
      ((¬ ∃ j, idx < j ∧ j < ts.length ∧ t + 10000 ≤ ts.getD j 0) →
        (idx + 1 < ts.length → handleJumpForward ts (some t) idx = ts.length - 1) ∧
        (ts.length ≤ idx + 1 → handleJumpForward ts (some t) idx = idx))) := by
  have hemp : ts.isEmpty = false := isEmpty_false_of_ne_nil hne
  constructor
  · cases idx with
    | zero =>
      constructor
      · rintro ⟨j, hj, _⟩
        exact absurd hj (Nat.not_lt_zero j)
      · intro _
        rw [handleJumpBack, hemp]
        rfl
    | succ i =>
      have hred : handleJumpBack ts (some t) (i + 1) = jumpBackLoop ts (t - 10000) i := by
        rw [handleJumpBack, hemp]
        rfl
      rw [hred]
      constructor
      · rintro ⟨j, hj, hPj⟩
        obtain ⟨ha, hb, hc⟩ := (jumpBackLoop_spec ts (t - 10000) i).1 ⟨j, by omega, hPj⟩
        exact ⟨by omega, hb, fun j' h1 h2 => hc j' h1 (by omega)⟩
      · intro hno
        refine (jumpBackLoop_spec ts (t - 10000) i).2 ?_
        rintro ⟨j, hj, hPj⟩
        exact hno ⟨j, by omega, hPj⟩
  · by_cases hnext : idx + 1 < ts.length
    · have hred : handleJumpForward ts (some t) idx
          = jumpForwardLoop ts (t + 10000) (idx + 1) (ts.length - (idx + 1)) := by
        rw [handleJumpForward, hemp]
        simp [hnext]
      rw [hred]
      obtain ⟨ha, hb, hc, hd⟩ :=
        jumpForwardLoop_spec ts (t + 10000) (ts.length - (idx + 1)) (idx + 1) hnext
          (by omega)
      constructor
      · rintro ⟨j0, hj0a, hj0b, hj0P⟩
        have hPr : t + 10000 ≤ ts.getD (jumpForwardLoop ts (t + 10000) (idx + 1)
            (ts.length - (idx + 1))) 0 := by
          rcases hd with h | h
          · exact h
          · by_contra hcon
            have hj0r : j0 < jumpForwardLoop ts (t + 10000) (idx + 1)
                (ts.length - (idx + 1)) ∨ j0 = jumpForwardLoop ts (t + 10000) (idx + 1)
                (ts.length - (idx + 1)) := by omega
            rcases hj0r with h' | h'
            · exact hc j0 (by omega) h' hj0P
            · exact hcon (h' ▸ hj0P)
        exact ⟨by omega, hb, hPr, fun j h1 h2 => hc j (by omega) h2⟩
      · intro hno
        refine ⟨fun _ => ?_, fun h => absurd hnext (by omega)⟩
        rcases hd with h | h
        · exact absurd ⟨jumpForwardLoop ts (t + 10000) (idx + 1)
            (ts.length - (idx + 1)), by omega, hb, h⟩ hno
        · exact h
    · have hred : handleJumpForward ts (some t) idx = idx := by
        rw [handleJumpForward, hemp]
        simp [hnext]
      rw [hred]
      constructor
      · rintro ⟨j0, hj0a, hj0b, _⟩
        exact absurd hj0b (by omega)
      · intro _
        exact ⟨fun h => absurd h hnext, fun _ => rfl⟩

/-- Witness for C2: jumping back from index 1 at time 11000 over timestamps
`[0, 11000]` finds snapshot 0 (timestamp 0 ≤ target 1000). -/
theorem c2_witness :
    ([(0:ℤ), 11000] ≠ []) ∧
    (handleJumpBack [(0:ℤ), 11000] (some 11000) 1 < 1 ∧
     [(0:ℤ), 11000].getD (handleJumpBack [(0:ℤ), 11000] (some 11000) 1) 0
       ≤ 11000 - 10000 ∧
     ∀ j, handleJumpBack [(0:ℤ), 11000] (some 11000) 1 < j → j < 1 →
       ¬ [(0:ℤ), 11000].getD j 0 ≤ 11000 - 10000) :=
  ⟨by decide, (c2_jump_semantics [(0:ℤ), 11000] 11000 1 (by decide)).1.1
    ⟨0, by decide, by decide⟩⟩

/-- C2 counterexample: with history timestamps `[0, 5000]`, index 1 and current
time 5000, the backward target is `-5000` and no snapshot in the scan direction
(index 0) qualifies, yet `handleJumpBack` moves the index to 0 instead of leaving
it at 1 — the jump is not a no-op. -/
theorem c2_counterexample :
    ¬ ([(0:ℤ), 5000].getD 0 0 ≤ (5000:ℤ) - 10000) ∧
    handleJumpBack [(0:ℤ), 5000] (some 5000) 1 = 0 ∧
    ¬ (handleJumpBack [(0:ℤ), 5000] (some 5000) 1 = 1) := by
  refine ⟨by decide, rfl, by decide⟩

/-! ### Replay seek (C6) -/

/-- Replay state touched by `handleSeek`: the index, the displayed snapshot, the
displayed time and the play flag (never read or written by the handler). -/
structure ReplayView where
  historyIndex : ℕ
  orderbook : Option Snapshot
  currentTime : Option ℤ
  isPlaying : Bool
deriving DecidableEq

/-- `handleSeek`: parse the requested slider index, store it unconditionally via
`setHistoryIndex(index)`, and update the displayed snapshot and time only when
`history[index]` is defined. -/
def handleSeek (history : List Snapshot) (st : ReplayView) (requested : ℕ) :
    ReplayView :=
  let st1 := { st with historyIndex := requested }
  match history[requested]? with
  | some snap => { st1 with orderbook := some snap, currentTime := some snap.timestamp }
  | none => st1

/-- C6 (amended): `handleSeek` stores the requested index without any bound check.
When the requested index is within `[0, history.length - 1]` it also updates the
displayed snapshot and time to `history[index]` immediately and independently of
the play state; for an out-of-range request, however, the stored index points
outside the history while the previously displayed snapshot stays in place. -/
theorem c6_seek_semantics (history : List Snapshot) (st : ReplayView) (i : ℕ) :
    (i < history.length →
      handleSeek history st i =
        { st with
            historyIndex := i,
            orderbook := history[i]?,
            currentTime := (history[i]?).map Snapshot.timestamp }) ∧
    (history.length ≤ i →
      handleSeek history st i = { st with historyIndex := i }) := by
  constructor
  · intro h
    have hg : history[i]? = some history[i] := List.getElem?_eq_getElem h
    rw [handleSeek, hg]
    simp
  · intro h
    have hg : history[i]? = none := List.getElem?_eq_none h
    rw [handleSeek, hg]

/-- Witness for C6: seeking to index 1 in a two-snapshot history. -/
theorem c6_witness :
    (1 < [Snapshot.mk 0 [] [], Snapshot.mk 7 [] []].length) ∧
    handleSeek [Snapshot.mk 0 [] [], Snapshot.mk 7 [] []]
        (ReplayView.mk 0 (some (Snapshot.mk 0 [] [])) (some 0) true) 1 =
      { ReplayView.mk 0 (some (Snapshot.mk 0 [] [])) (some 0) true with
          historyIndex := 1,
          orderbook := [Snapshot.mk 0 [] [], Snapshot.mk 7 [] []][1]?,
          currentTime := ([Snapshot.mk 0 [] [], Snapshot.mk 7 [] []][1]?).map
            Snapshot.timestamp } :=
  ⟨by decide,
    (c6_seek_semantics [Snapshot.mk 0 [] [], Snapshot.mk 7 [] []]
      (ReplayView.mk 0 (some (Snapshot.mk 0 [] [])) (some 0) true) 1).1 (by decide)⟩

/-- C6 counterexample: seeking to index 5 in a one-snapshot history stores index 5,
which lies outside `[0, history.length - 1] = [0, 0]`, while the displayed snapshot
stays the previously shown one — the stale-view situation the claim rules out. -/
theorem c6_counterexample :
    (handleSeek [Snapshot.mk 0 [] []]
        (ReplayView.mk 0 (some (Snapshot.mk 0 [] [])) (some 0) false) 5).historyIndex
        = 5 ∧
    ¬ (5 ≤ [Snapshot.mk 0 [] []].length - 1) ∧
    (handleSeek [Snapshot.mk 0 [] []]
        (ReplayView.mk 0 (some (Snapshot.mk 0 [] [])) (some 0) false) 5).orderbook
      = some (Snapshot.mk 0 [] []) := by
  refine ⟨rfl, by decide, rfl⟩

/-! ### Anomaly detector: rolling averages and whale set (C4) -/

/-- Whale threshold multiplier (`WHALE_THRESHOLD = 5.0`). -/
def whaleThreshold : ℚ := 5

/-- Large-order threshold multiplier (`LARGE_ORDER_THRESHOLD = 2.0`). -/
def largeOrderThreshold : ℚ := 2

/-- Spoof detection window in milliseconds (`SPOOF_DETECTION_WINDOW = 3000`). -/
def spoofWindow : ℤ := 3000

/-- Arithmetic mean used throughout the detector
(`arr.length > 0 ? arr.reduce((a, b) => a + b, 0) / arr.length : 0`). -/
def listAvg (l : List ℚ) : ℚ := if 0 < l.length then l.sum / l.length else 0

/-- Rolling-window truncation (`if (len > 100) history = history.slice(-100)`):
keep the most recent 100 samples. -/
def keepLast100 (l : List ℚ) : List ℚ :=
  if 100 < l.length then l.drop (l.length - 100) else l

/-- JS `Set.add` on a list model: append the element unless already present. -/
def setAdd (s : List ℚ) (x : ℚ) : List ℚ := if x ∈ s then s else s ++ [x]

/-- Whale-detection step of the anomaly effect: push the current snapshot's raw
volumes into the per-side rolling windows (`volumeHistoryRef`), truncate each to the
last 100 samples, recompute both rolling averages, then collect into a fresh `Set`
every level whose volume strictly exceeds `rollingAverage(side) * 5.0`. -/
def whaleStep (vhB vhA : List ℚ) (bids asks : List Level) :
    (List ℚ × List ℚ) × List ℚ :=
  let vb := keepLast100 (vhB ++ bids.map Prod.snd)
  let va := keepLast100 (vhA ++ asks.map Prod.snd)
  let bidRollingAvg := listAvg vb
  let askRollingAvg := listAvg va
  let w1 := bids.foldl
    (fun s l => if bidRollingAvg * whaleThreshold < l.2 then setAdd s l.1 else s) []
  let w2 := asks.foldl
    (fun s l => if askRollingAvg * whaleThreshold < l.2 then setAdd s l.1 else s) w1
  ((vb, va), w2)

theorem mem_setAdd {s : List ℚ} {x p : ℚ} : p ∈ setAdd s x ↔ p ∈ s ∨ p = x := by
  unfold setAdd
  split
  · next hx =>
      constructor
      · exact Or.inl
      · rintro (h | rfl)
        · exact h
        · exact hx
  · simp

theorem mem_foldl_whale (avg : ℚ) (l : List Level) (init : List ℚ) (p : ℚ) :
    (p ∈ l.foldl
        (fun s lv => if avg * whaleThreshold < lv.2 then setAdd s lv.1 else s) init) ↔
      p ∈ init ∨ ∃ lv ∈ l, lv.1 = p ∧ avg * whaleThreshold < lv.2 := by
  induction l generalizing init with
  | nil => simp
  | cons hd tl ih =>
    rw [List.foldl_cons, ih]
    by_cases hc : avg * whaleThreshold < hd.2
    · rw [if_pos hc]
      constructor
      · rintro (h | h)
        · rcases mem_setAdd.1 h with h' | h'
          · exact Or.inl h'
          · exact Or.inr ⟨hd, by simp, h'.symm, hc⟩
        · obtain ⟨lv, hlv, h1, h2⟩ := h
          exact Or.inr ⟨lv, by simp [hlv], h1, h2⟩
      · rintro (h | ⟨lv, hlv, h1, h2⟩)
        · exact Or.inl (mem_setAdd.2 (Or.inl h))
        · rcases List.mem_cons.1 hlv with rfl | hlv'
          · exact Or.inl (mem_setAdd.2 (Or.inr h1.symm))
          · exact Or.inr ⟨lv, hlv', h1, h2⟩
    · rw [if_neg hc]
      constructor
      · rintro (h | ⟨lv, hlv, h1, h2⟩)
        · exact Or.inl h
        · exact Or.inr ⟨lv, by simp [hlv], h1, h2⟩
      · rintro (h | ⟨lv, hlv, h1, h2⟩)
        · exact Or.inl h
        · rcases List.mem_cons.1 hlv with rfl | hlv'
          · exact absurd h2 hc
          · exact Or.inr ⟨lv, hlv', h1, h2⟩

/-- C4: after each live update, the whale set built by the detector contains exactly
the prices of current levels whose volume strictly exceeds `5×` the just-recomputed
rolling average of that level's side — bid levels against the bid average, ask
levels against the ask average.  The set is rebuilt from an empty `Set` on every
update, so no price from an earlier update persists unless it qualifies again. -/
theorem c4_whale_set (vhB vhA : List ℚ) (bids asks : List Level) (p : ℚ) :
    p ∈ (whaleStep vhB vhA bids asks).2 ↔
      (∃ lv ∈ bids, lv.1 = p ∧
        listAvg (keepLast100 (vhB ++ bids.map Prod.snd)) * whaleThreshold < lv.2) ∨
      (∃ lv ∈ asks, lv.1 = p ∧
        listAvg (keepLast100 (vhA ++ asks.map Prod.snd)) * whaleThreshold < lv.2) := by
  show p ∈ asks.foldl _ (bids.foldl _ []) ↔ _
  rw [mem_foldl_whale, mem_foldl_whale]
  simp only [List.not_mem_nil, false_or]

/-! ### Anomaly detector: spoof detection (C8, C3) -/

/-- Liquidity sample (`{ time, volume }`) recorded per price. -/
structure Sample where
  time : ℤ
  volume : ℚ
deriving DecidableEq

/-- Spoof alert (`{ price, maxVol, time }`). -/
structure SpoofAlert where
  price : ℚ
  maxVol : ℚ
  time : ℤ
deriving DecidableEq

/-- JS `Map.get` on the association-list model: value of the first (unique) entry
with the given key. -/
def jsGet {β : Type} (m : List (ℚ × β)) (k : ℚ) : Option β :=
  (m.find? (fun kv => kv.1 == k)).map Prod.snd

/-- JS `Map.set`: overwrite the entry in place, or append the key in insertion
order when absent. -/
def jsSet {β : Type} : List (ℚ × β) → ℚ → β → List (ℚ × β)
  | [], k, v => [(k, v)]
  | (q, w) :: rest, k, v =>
    if q = k then (q, v) :: rest else (q, w) :: jsSet rest k v

/-- JS `Map.delete`: drop the entry with the given key. -/
def jsDelete {β : Type} (m : List (ℚ × β)) (k : ℚ) : List (ℚ × β) :=
  m.filter (fun kv => kv.1 != k)

/-- `Math.max(...arr)` on a non-empty list (`0` is never used: the detector only
takes the maximum of lists with at least two samples). -/
def listMax : List ℚ → ℚ
  | [] => 0
  | x :: rest => rest.foldl max x

/-- `Math.min(...arr)` on a non-empty list. -/
def listMin : List ℚ → ℚ
  | [] => 0
  | x :: rest => rest.foldl min x

/-- The `recentLiquidityRef` JS `Map` from price to retained samples. -/
abbrev LiqMap := List (ℚ × List Sample)

/-- One iteration of the spoof-detection `forEach` over a current level: read the
price's history, append the fresh `(now, volume)` sample, purge samples older than
the 3 s window, store the retained list (or delete the key when nothing remains),
and when at least two samples remain and the max/min volume conditions hold and the
retained time span is under the window, push a spoof alert. -/
def spoofLevelStep (avgVol : ℚ) (now : ℤ) (acc : LiqMap × List SpoofAlert)
    (l : Level) : LiqMap × List SpoofAlert :=
  let history := (jsGet acc.1 l.1).getD []
  let hist2 := history ++ [Sample.mk now l.2]
  let filtered := hist2.filter (fun h => decide (now - h.time < spoofWindow))
  if 0 < filtered.length then
    let m2 := jsSet acc.1 l.1 filtered
    if 2 ≤ filtered.length then
      let maxVol := listMax (filtered.map Sample.volume)
      let minVol := listMin (filtered.map Sample.volume)
      if avgVol * 3 < maxVol ∧ minVol < avgVol * (1 / 2) then
        if (filtered.getLastD (Sample.mk 0 0)).time
            - (filtered.headD (Sample.mk 0 0)).time < spoofWindow then
          (m2, acc.2 ++ [SpoofAlert.mk l.1 maxVol now])
        else (m2, acc.2)
      else (m2, acc.2)
    else (m2, acc.2)
  else (jsDelete acc.1 l.1, acc.2)

/-- The spoof-detection pass over all current levels
(`[...(orderbook.bids ?? []), ...(orderbook.asks ?? [])].forEach(...)`), threading
the liquidity map and the `detectedSpoofs` list. -/
def spoofUpdate (m : LiqMap) (now : ℤ) (levels : List Level) (avgVol : ℚ) :
    LiqMap × List SpoofAlert :=
  levels.foldl (spoofLevelStep avgVol now) (m, [])

/-- Variant of `spoofLevelStep` stated from the claim, with the time-span guard
removed: an alert is pushed exactly when the max/min volume conditions hold over
the retained samples. -/
def spoofLevelStepNoGuard (avgVol : ℚ) (now : ℤ) (acc : LiqMap × List SpoofAlert)
    (l : Level) : LiqMap × List SpoofAlert :=
  let history := (jsGet acc.1 l.1).getD []
  let hist2 := history ++ [Sample.mk now l.2]
  let filtered := hist2.filter (fun h => decide (now - h.time < spoofWindow))
  if 0 < filtered.length then
    let m2 := jsSet acc.1 l.1 filtered
    if 2 ≤ filtered.length then
      let maxVol := listMax (filtered.map Sample.volume)
      let minVol := listMin (filtered.map Sample.volume)
      if avgVol * 3 < maxVol ∧ minVol < avgVol * (1 / 2) then
        (m2, acc.2 ++ [SpoofAlert.mk l.1 maxVol now])
      else (m2, acc.2)
    else (m2, acc.2)
  else (jsDelete acc.1 l.1, acc.2)

/-- Guard-free spoof pass, for comparison with the source-faithful one. -/
def spoofUpdateNoGuard (m : LiqMap) (now : ℤ) (levels : List Level) (avgVol : ℚ) :
    LiqMap × List SpoofAlert :=
  levels.foldl (spoofLevelStepNoGuard avgVol now) (m, [])

theorem filter_fresh_append (now : ℤ) (history : List Sample) (v : ℚ) :
    (history ++ [Sample.mk now v]).filter (fun h => decide (now - h.time < spoofWindow))
      = history.filter (fun h => decide (now - h.time < spoofWindow))
        ++ [Sample.mk now v] := by
  rw [List.filter_append]
  have hfresh : List.filter (fun h => decide (now - h.time < spoofWindow))
      [Sample.mk now v] = [Sample.mk now v] := by
    simp [spoofWindow]
  rw [hfresh]

/-- The span between the first and last retained sample is always under the
window: the freshly appended sample is the last retained one and carries the
current time, and the first retained one survived the purge. -/
theorem filtered_span_lt (now : ℤ) (history : List Sample) (v : ℚ) :
    (((history ++ [Sample.mk now v]).filter
          (fun h => decide (now - h.time < spoofWindow))).getLastD
        (Sample.mk 0 0)).time
      - (((history ++ [Sample.mk now v]).filter
          (fun h => decide (now - h.time < spoofWindow))).headD
        (Sample.mk 0 0)).time < spoofWindow := by
  rw [filter_fresh_append]
  have hlast : ((history.filter (fun h => decide (now - h.time < spoofWindow))
      ++ [Sample.mk now v]).getLastD (Sample.mk 0 0)) = Sample.mk now v := by
    rw [List.getLastD_eq_getLast?, List.getLast?_append_cons]
    rfl
  rw [hlast]
  cases hh : history.filter (fun h => decide (now - h.time < spoofWindow)) with
  | nil =>
    simp [spoofWindow]
  | cons s rest =>
    have hs : s ∈ history.filter (fun h => decide (now - h.time < spoofWindow)) := by
      rw [hh]
      exact List.mem_cons_self s rest
    have hyoung : now - s.time < spoofWindow :=
      of_decide_eq_true ((List.mem_filter.1 hs).2)
    simpa using hyoung

theorem spoofLevelStep_eq (avgVol : ℚ) (now : ℤ) (acc : LiqMap × List SpoofAlert)
    (l : Level) :
    spoofLevelStep avgVol now acc l = spoofLevelStepNoGuard avgVol now acc l := by
  have hspan := filtered_span_lt now ((jsGet acc.1 l.1).getD []) l.2
  simp only [spoofLevelStep, spoofLevelStepNoGuard]
  split_ifs <;> rfl

/-- C8: the time-span guard of the spoof detector is vacuous.  The source-faithful
pass and the guard-free pass coincide on every input, so a spoof alert is emitted
exactly when `maxVol > 3 × avgVol` and `minVol < 0.5 × avgVol` over the retained
samples of a price with at least two of them. -/
theorem c8_spoof_guard_vacuous (m : LiqMap) (now : ℤ) (levels : List Level)
    (avgVol : ℚ) :
    spoofUpdate m now levels avgVol = spoofUpdateNoGuard m now levels avgVol := by
  unfold spoofUpdate spoofUpdateNoGuard
  suffices h : ∀ acc : LiqMap × List SpoofAlert,
      levels.foldl (spoofLevelStep avgVol now) acc
        = levels.foldl (spoofLevelStepNoGuard avgVol now) acc from h (m, [])
  induction levels with
  | nil => intro acc; rfl
  | cons hd tl ih =>
    intro acc
    rw [List.foldl_cons, List.foldl_cons, spoofLevelStep_eq, ih]

/-! ### C3 : contents of the liquidity map after an update -/

theorem jsGet_cons {β : Type} (q : ℚ) (w : β) (rest : List (ℚ × β)) (k : ℚ) :
    jsGet ((q, w) :: rest) k = if q = k then some w else jsGet rest k := by
  by_cases hq : q = k
  · rw [if_pos hq]
    unfold jsGet
    rw [List.find?_cons_of_pos _ (by simp [hq])]
    rfl
  · rw [if_neg hq]
    unfold jsGet
    rw [List.find?_cons_of_neg _ (by simp [hq])]

theorem jsSet_cons {β : Type} (q : ℚ) (w : β) (rest : List (ℚ × β)) (k : ℚ) (v : β) :
    jsSet ((q, w) :: rest) k v
      = if q = k then (q, v) :: rest else (q, w) :: jsSet rest k v := rfl

theorem jsGet_jsSet_self {β : Type} (m : List (ℚ × β)) (k : ℚ) (v : β) :
    jsGet (jsSet m k v) k = some v := by
  induction m with
  | nil =>
    show jsGet [(k, v)] k = some v
    rw [jsGet_cons, if_pos rfl]
  | cons kv rest ih =>
    obtain ⟨q, w⟩ := kv
    rw [jsSet_cons]
    by_cases hq : q = k
    · rw [if_pos hq, jsGet_cons, if_pos hq]
    · rw [if_neg hq, jsGet_cons, if_neg hq]
      exact ih

theorem jsGet_jsSet_other {β : Type} (m : List (ℚ × β)) {k k' : ℚ} (v : β)
    (h : k' ≠ k) : jsGet (jsSet m k v) k' = jsGet m k' := by
  have hkk' : ¬ (k = k') := fun he => h he.symm
  induction m with
  | nil =>
    show jsGet [(k, v)] k' = jsGet [] k'
    rw [jsGet_cons, if_neg hkk']
  | cons kv rest ih =>
    obtain ⟨q, w⟩ := kv
    rw [jsSet_cons]
    by_cases hq : q = k
    · have hqk' : ¬ (q = k') := fun he => hkk' (hq.symm.trans he)
      rw [if_pos hq, jsGet_cons, jsGet_cons, if_neg hqk', if_neg hqk']
    · rw [if_neg hq, jsGet_cons, jsGet_cons]
      by_cases hq' : q = k'
      · rw [if_pos hq', if_pos hq']
      · rw [if_neg hq', if_neg hq']
        exact ih

theorem filtered_nonempty (now : ℤ) (history : List Sample) (v : ℚ) :
    (history ++ [Sample.mk now v]).filter (fun h => decide (now - h.time < spoofWindow))
      ≠ [] := by
  rw [filter_fresh_append]
  simp

theorem filtered_young (now : ℤ) (history : List Sample) (v : ℚ) :
    ∀ s ∈ (history ++ [Sample.mk now v]).filter
        (fun h => decide (now - h.time < spoofWindow)),
      now - s.time < spoofWindow :=
  fun _ hs => of_decide_eq_true (List.mem_filter.1 hs).2

/-- The liquidity map after one `forEach` iteration: the fresh sample always
survives the purge, so the `delete` branch is dead and the processed price is
always stored with its retained list. -/
theorem spoofLevelStep_fst (avgVol : ℚ) (now : ℤ) (acc : LiqMap × List SpoofAlert)
    (l : Level) :
    (spoofLevelStep avgVol now acc l).1
      = jsSet acc.1 l.1
          ((((jsGet acc.1 l.1).getD []) ++ [Sample.mk now l.2]).filter
            (fun h => decide (now - h.time < spoofWindow))) := by
  have hpos : 0 < ((((jsGet acc.1 l.1).getD []) ++ [Sample.mk now l.2]).filter
      (fun h => decide (now - h.time < spoofWindow))).length := by
    rw [filter_fresh_append]
    simp
  simp only [spoofLevelStep]
  split_ifs <;> rfl

theorem spoofFold_get_other (avgVol : ℚ) (now : ℤ) :
    ∀ (levels : List Level) (acc : LiqMap × List SpoofAlert) (p : ℚ),
      p ∉ levels.map Prod.fst →
      jsGet (levels.foldl (spoofLevelStep avgVol now) acc).1 p = jsGet acc.1 p := by
  intro levels
  induction levels with
  | nil => intro acc p _; rfl
  | cons hd tl ih =>
    intro acc p hp
    simp only [List.map_cons, List.mem_cons, not_or] at hp
    rw [List.foldl_cons, ih _ p hp.2, spoofLevelStep_fst]
    exact jsGet_jsSet_other _ _ hp.1

theorem spoofFold_get_present (avgVol : ℚ) (now : ℤ) :
    ∀ (levels : List Level) (acc : LiqMap × List SpoofAlert) (p : ℚ),
      p ∈ levels.map Prod.fst →
      ∃ lst, jsGet (levels.foldl (spoofLevelStep avgVol now) acc).1 p = some lst ∧
        lst ≠ [] ∧ ∀ s ∈ lst, now - s.time < spoofWindow := by
  intro levels
  induction levels with
  | nil =>
    intro acc p hp
    simp at hp
  | cons hd tl ih =>
    intro acc p hp
    rw [List.foldl_cons]
    by_cases hptl : p ∈ tl.map Prod.fst
    · exact ih _ p hptl
    · have hphd : p = hd.1 := by
        simp only [List.map_cons, List.mem_cons] at hp
        tauto
      rw [spoofFold_get_other avgVol now tl _ p hptl, spoofLevelStep_fst, hphd]
      exact ⟨_, jsGet_jsSet_self _ _ _,
        filtered_nonempty now ((jsGet acc.1 hd.1).getD []) hd.2,
        filtered_young now ((jsGet acc.1 hd.1).getD []) hd.2⟩

/-- C3 (amended): after each spoof-detection pass, every price present in the
current snapshot's combined bid+ask level list maps to a non-empty sample list all
of whose samples are younger than the 3 s window; a price absent from the current
snapshot keeps its previous entry unchanged — stale samples at absent prices are
neither purged nor removed, and a price is never deleted from the mapping. -/
theorem c3_liquidity_window (m : LiqMap) (now : ℤ) (levels : List Level)
    (avgVol : ℚ) (p : ℚ) :
    (p ∈ levels.map Prod.fst →
      ∃ lst, jsGet (spoofUpdate m now levels avgVol).1 p = some lst ∧ lst ≠ [] ∧
        ∀ s ∈ lst, now - s.time < spoofWindow) ∧
    (p ∉ levels.map Prod.fst →
      jsGet (spoofUpdate m now levels avgVol).1 p = jsGet m p) :=
  ⟨fun hp => spoofFold_get_present avgVol now levels (m, []) p hp,
   fun hp => spoofFold_get_other avgVol now levels (m, []) p hp⟩

/-- Witness for C3: a single current level at price 100 observed at time 0 over an
empty liquidity map. -/
theorem c3_witness :
    ((100:ℚ) ∈ ([((100:ℚ), (5:ℚ))].map Prod.fst)) ∧
    (∃ lst, jsGet (spoofUpdate [] 0 [((100:ℚ), 5)] 0).1 100 = some lst ∧ lst ≠ [] ∧
      ∀ s ∈ lst, (0:ℤ) - s.time < spoofWindow) :=
  ⟨by with_unfolding_all decide,
   (c3_liquidity_window [] 0 [((100:ℚ), 5)] 0 100).1 (by with_unfolding_all decide)⟩

/-- C3 counterexample: a stale entry at price 50 holding a sample recorded at time
0 survives an update at time 10000 whose snapshot contains only price 100 — the
entry is neither purged nor removed, and its sample is 10 s old, far beyond the
3 s window, refuting the claimed invariant over every price key. -/
theorem c3_counterexample :
    jsGet (spoofUpdate [((50:ℚ), [Sample.mk 0 1])] 10000 [((100:ℚ), 2)] 0).1 50
        = some [Sample.mk 0 1] ∧
    ¬ ((10000:ℤ) - (Sample.mk 0 1).time < spoofWindow) := by
  constructor
  · with_unfolding_all decide
  · decide

/-! ### C10 : large-order change maps and their merge -/

/-- Change type recorded per flagged price (`type: 'added' | 'removed'`). -/
inductive ChangeKind
  | added
  | removed
deriving DecidableEq

/-- Side tag recorded per flagged price (the `side` string `'bid' | 'ask'`). -/
inductive BookSide
  | bid
  | ask
deriving DecidableEq

/-- Change entry (`{ type, side }`). -/
structure Change where
  kind : ChangeKind
  side : BookSide
deriving DecidableEq

/-- JS `new Map(entries)`: build a map from an entry list, later entries
overwriting earlier ones. -/
def jsMapOfList {β : Type} (l : List (ℚ × β)) : List (ℚ × β) :=
  l.foldl (fun m kv => jsSet m kv.1 kv.2) []

/-- `detectChanges(current, previous, side)`: map both level lists by price,
compute the mean current level size and the `2×` threshold, flag prices whose
volume rose by more than the threshold as `added`, then flag prices whose volume
fell by more than the threshold (removal counting as volume 0) as `removed`.
Returns the change map and the average size. -/
def detectChanges (current previous : List Level) (side : BookSide) :
    List (ℚ × Change) × ℚ :=
  let currentMap := jsMapOfList current
  let prevMap := jsMapOfList previous
  let allSizes := currentMap.map Prod.snd
  let avgSize := listAvg allSizes
  let threshold := avgSize * largeOrderThreshold
  let changes1 := currentMap.foldl (fun ch kv =>
    if threshold < kv.2 - (jsGet prevMap kv.1).getD 0
    then jsSet ch kv.1 (Change.mk ChangeKind.added side) else ch) []
  let changes2 := prevMap.foldl (fun ch kv =>
    if threshold < kv.2 - (jsGet currentMap kv.1).getD 0
    then jsSet ch kv.1 (Change.mk ChangeKind.removed side) else ch) changes1
  (changes2, avgSize)

/-- The merge `new Map([...bidResult.changes, ...askResult.changes])`. -/
def mergeChanges (bidChanges askChanges : List (ℚ × Change)) : List (ℚ × Change) :=
  jsMapOfList (bidChanges ++ askChanges)

theorem detectChanges_fst (current previous : List Level) (side : BookSide) :
    (detectChanges current previous side).1
      = (jsMapOfList previous).foldl (fun ch kv =>
          if listAvg ((jsMapOfList current).map Prod.snd) * largeOrderThreshold
              < kv.2 - (jsGet (jsMapOfList current) kv.1).getD 0
          then jsSet ch kv.1 (Change.mk ChangeKind.removed side) else ch)
        ((jsMapOfList current).foldl (fun ch kv =>
          if listAvg ((jsMapOfList current).map Prod.snd) * largeOrderThreshold
              < kv.2 - (jsGet (jsMapOfList previous) kv.1).getD 0
          then jsSet ch kv.1 (Change.mk ChangeKind.added side) else ch) []) := rfl

theorem map_fst_jsSet {β : Type} (m : List (ℚ × β)) (k : ℚ) (v : β) :
    (jsSet m k v).map Prod.fst =
      if k ∈ m.map Prod.fst then m.map Prod.fst else m.map Prod.fst ++ [k] := by
  induction m with
  | nil => simp [jsSet]
  | cons kv rest ih =>
    obtain ⟨q, w⟩ := kv
    rw [jsSet_cons]
    by_cases hq : q = k
    · subst hq
      simp
    · rw [if_neg hq]
      simp only [List.map_cons, List.mem_cons, ih]
      by_cases hmem : k ∈ rest.map Prod.fst <;> simp [hmem, Ne.symm hq]

theorem nodup_keys_jsSet {β : Type} {m : List (ℚ × β)} (h : (m.map Prod.fst).Nodup)
    (k : ℚ) (v : β) : ((jsSet m k v).map Prod.fst).Nodup := by
  rw [map_fst_jsSet]
  split
  · exact h
  · next hnot =>
      exact (List.nodup_append).mpr
        ⟨h, List.nodup_singleton k, by simpa [List.disjoint_singleton] using hnot⟩

/-- Any fold whose steps either leave the map unchanged or perform a `jsSet`
preserves distinctness of the keys. -/
theorem nodup_keys_foldl_pres {β : Type} (f : List (ℚ × β) → Level → List (ℚ × β))
    (hf : ∀ ch kv, f ch kv = ch ∨ ∃ v, f ch kv = jsSet ch kv.1 v) :
    ∀ (l : List Level) (m : List (ℚ × β)), (m.map Prod.fst).Nodup →
      ((l.foldl f m).map Prod.fst).Nodup := by
  intro l
  induction l with
  | nil => intro m hm; simpa using hm
  | cons hd tl ih =>
    intro m hm
    rw [List.foldl_cons]
    rcases hf m hd with h | ⟨v, h⟩
    · rw [h]
      exact ih m hm
    · rw [h]
      exact ih _ (nodup_keys_jsSet hm _ _)

theorem detectChanges_keys_nodup (current previous : List Level) (side : BookSide) :
    (((detectChanges current previous side).1).map Prod.fst).Nodup := by
  rw [detectChanges_fst]
  apply nodup_keys_foldl_pres
  · intro ch kv
    by_cases hP : listAvg ((jsMapOfList current).map Prod.snd) * largeOrderThreshold
        < kv.2 - (jsGet (jsMapOfList current) kv.1).getD 0
    · exact Or.inr ⟨_, if_pos hP⟩
    · exact Or.inl (if_neg hP)
  · apply nodup_keys_foldl_pres
    · intro ch kv
      by_cases hP : listAvg ((jsMapOfList current).map Prod.snd) * largeOrderThreshold
          < kv.2 - (jsGet (jsMapOfList previous) kv.1).getD 0
      · exact Or.inr ⟨_, if_pos hP⟩
      · exact Or.inl (if_neg hP)
    · simp

theorem find?_append {γ : Type} (p : γ → Bool) :
    ∀ (l₁ l₂ : List γ), (l₁ ++ l₂).find? p
      = match l₁.find? p with
        | some x => some x
        | none => l₂.find? p := by
  intro l₁
  induction l₁ with
  | nil => intro l₂; rfl
  | cons a tl ih =>
    intro l₂
    by_cases hp : p a = true
    · rw [List.cons_append, List.find?_cons_of_pos _ hp, List.find?_cons_of_pos _ hp]
    · rw [List.cons_append, List.find?_cons_of_neg _ hp, List.find?_cons_of_neg _ hp, ih]

/-- Value of the last entry with a given key, the one JS `Map` construction from an
entry list retains. -/
def lastVal {β : Type} (l : List (ℚ × β)) (k : ℚ) : Option β :=
  (l.reverse.find? (fun kv => kv.1 == k)).map Prod.snd

theorem lastVal_cons {β : Type} (kv : ℚ × β) (rest : List (ℚ × β)) (k : ℚ) :
    lastVal (kv :: rest) k
      = match lastVal rest k with
        | some v => some v
        | none => if kv.1 = k then some kv.2 else none := by
  unfold lastVal
  rw [List.reverse_cons, find?_append]
  cases hrv : rest.reverse.find? (fun kv => kv.1 == k) with
  | some x => rfl
  | none =>
    by_cases hk : kv.1 = k
    · rw [List.find?_cons_of_pos _ (by simp [hk]), if_pos hk]
      rfl
    · rw [List.find?_cons_of_neg _ (by simp [hk]), if_neg hk]
      rfl

theorem jsGet_foldl_jsSet {β : Type} :
    ∀ (l : List (ℚ × β)) (m : List (ℚ × β)) (k : ℚ),
      jsGet (l.foldl (fun m kv => jsSet m kv.1 kv.2) m) k
        = match lastVal l k with
          | some v => some v
          | none => jsGet m k := by
  intro l
  induction l with
  | nil => intro m k; rfl
  | cons kv rest ih =>
    intro m k
    rw [List.foldl_cons, ih, lastVal_cons]
    cases hrv : lastVal rest k with
    | some v => rfl
    | none =>
      by_cases hk : kv.1 = k
      · rw [if_pos hk]
        show jsGet (jsSet m kv.1 kv.2) k = some kv.2
        rw [hk]
        exact jsGet_jsSet_self m k kv.2
      · rw [if_neg hk]
        show jsGet (jsSet m kv.1 kv.2) k = jsGet m k
        exact jsGet_jsSet_other m kv.2 (fun he => hk he.symm)

theorem lastVal_eq_jsGet_of_nodup {β : Type} :
    ∀ (m : List (ℚ × β)), ((m.map Prod.fst).Nodup) → ∀ k, lastVal m k = jsGet m k := by
  intro m
  induction m with
  | nil => intro _ k; rfl
  | cons kv rest ih =>
    intro hnd k
    obtain ⟨q, w⟩ := kv
    simp only [List.map_cons, List.nodup_cons] at hnd
    rw [lastVal_cons, jsGet_cons]
    by_cases hq : q = k
    · have hnone : lastVal rest k = none := by
        unfold lastVal
        have : rest.reverse.find? (fun kv => kv.1 == k) = none := by
          rw [List.find?_eq_none]
          intro x hx hbx
          have hxk : x.1 = k := by simpa using hbx
          exact hnd.1 (by
            rw [← hq] at hxk
            exact hxk ▸ List.mem_map_of_mem Prod.fst (List.mem_reverse.1 hx))
        rw [this]
        rfl
      rw [hnone]
      simp [hq]
    · cases hrv : lastVal rest k with
      | some v =>
        rw [ih hnd.2 k] at hrv
        rw [hrv]
        simp [hq]
      | none =>
        rw [ih hnd.2 k] at hrv
        rw [hrv]

/-- C10: when the same price is flagged by both per-side change maps (possible in a
crossed or touching book, which the engine passes through unchanged), the merged
`allChanges` map keeps only the ask-side entry for that price — the bid-side flag
is silently overwritten. -/
theorem c10_merge_ask_wins (curB prevB curA prevA : List Level) (p : ℚ)
    (cb ca : Change)
    (_hb : jsGet (detectChanges curB prevB BookSide.bid).1 p = some cb)
    (ha : jsGet (detectChanges curA prevA BookSide.ask).1 p = some ca) :
    jsGet (mergeChanges (detectChanges curB prevB BookSide.bid).1
        (detectChanges curA prevA BookSide.ask).1) p = some ca := by
  have hndA := detectChanges_keys_nodup curA prevA BookSide.ask
  unfold mergeChanges jsMapOfList
  rw [List.foldl_append, jsGet_foldl_jsSet, lastVal_eq_jsGet_of_nodup _ hndA p, ha]

/-- Witness for C10 at a concrete touching book: price 100 loses a large bid
(removed/bid) while gaining a large ask (added/ask); the merge keeps the ask flag. -/
theorem c10_witness :
    jsGet (detectChanges [((100:ℚ), 1)] [((100:ℚ), 20)] BookSide.bid).1 100
        = some (Change.mk ChangeKind.removed BookSide.bid) ∧
    jsGet (detectChanges [((100:ℚ), 8), (101, 1), (102, 1)] [] BookSide.ask).1 100
        = some (Change.mk ChangeKind.added BookSide.ask) ∧
    jsGet (mergeChanges (detectChanges [((100:ℚ), 1)] [((100:ℚ), 20)] BookSide.bid).1
        (detectChanges [((100:ℚ), 8), (101, 1), (102, 1)] [] BookSide.ask).1) 100
      = some (Change.mk ChangeKind.added BookSide.ask) := by
  refine ⟨?_, ?_, ?_⟩
  · with_unfolding_all decide
  · with_unfolding_all decide
  · exact c10_merge_ask_wins [((100:ℚ), 1)] [((100:ℚ), 20)]
      [((100:ℚ), 8), (101, 1), (102, 1)] [] 100
      (Change.mk ChangeKind.removed BookSide.bid)
      (Change.mk ChangeKind.added BookSide.ask)
      (by with_unfolding_all decide) (by with_unfolding_all decide)

end Kraken
